import Mathlib

/-!
Verification of `DisassemblerScripts/ida_dump_xrefs.py` (IL2CppUsageAnalyzer).

Strings of the Python script are modelled as `List Char`.  The name
normalizer `clean_demangled`, the namespace/substring filter, the caller
collector and the graph builder are embedded as executable Lean functions;
the external IDA analysis engine is abstracted as a structure of query
functions (`Engine`).
-/

namespace IL2Cpp

/-- The set of characters matched by Python's `\s` regex class (and by
`str.isspace`) on `str` inputs: ASCII whitespace, the C1 separators, and
the Unicode space characters. -/
def pyIsSpace (c : Char) : Bool :=
  c ∈ ['\t', '\n', '\x0b', '\x0c', '\r', ' ',
       '\x1c', '\x1d', '\x1e', '\x1f', '\x85', '\xa0',
       '\u1680', '\u2000', '\u2001', '\u2002', '\u2003', '\u2004',
       '\u2005', '\u2006', '\u2007', '\u2008', '\u2009', '\u200a',
       '\u2028', '\u2029', '\u202f', '\u205f', '\u3000']

/-- Substring-at test `subAt sub l i`: the token `sub` occurs in `l` starting at index `i`
(Python's `l[i:i+len(sub)] == sub`). -/
def subAt (sub l : List Char) (i : Nat) : Bool :=
  sub.isPrefixOf (l.drop i)

/-- Python `str.find` for a fixed search token: index of the first
occurrence of `sub` in the argument, `none` when absent (`-1` in Python). -/
def findSub (sub : List Char) : List Char → Option Nat
  | [] => if sub.isPrefixOf ([] : List Char) then some 0 else none
  | c :: rest =>
    if sub.isPrefixOf (c :: rest) then some 0
    else (findSub sub rest).map (· + 1)

/-- Python `str.rfind` for a single character: index of the last occurrence
of `c` in the argument, `none` when absent (`-1` in Python). -/
def rfindChar (c : Char) : List Char → Option Nat
  | [] => none
  | a :: rest =>
    match rfindChar c rest with
    | some j => some (j + 1)
    | none => if a = c then some 0 else none

/-- Containment test `hasSub l sub`: Python's `sub in l` substring test. -/
def hasSub (l sub : List Char) : Bool :=
  (findSub sub l).isSome

/-- The namespace-separator token `"::"`. -/
def dcolon : List Char := [':', ':']

/-- Step 1 of `clean_demangled`: if the name contains `"::"`, take the
substring before the first occurrence, find the last space character
(`" "`, `str.rfind`) in it, and drop everything up to and including that
space; otherwise leave the name unchanged.

```python
first_colon = name.find("::")
if first_colon != -1:
    prefix = name[:first_colon]
    last_space = prefix.rfind(" ")
    if last_space != -1:
        name = name[last_space + 1:]
``` -/
def step1 (name : List Char) : List Char :=
  match findSub dcolon name with
  | none => name
  | some i =>
    match rfindChar ' ' (name.take i) with
    | none => name
    | some j => name.drop (j + 1)

/-- The token `"TryGet"`. -/
def tryGetTok : List Char := ['T', 'r', 'y', 'G', 'e', 't']

/-- The token `"Array"`. -/
def arrayTok : List Char := ['A', 'r', 'r', 'a', 'y']

/-- Helper for `matchTGA`: `re`-search for `.*Array` starting at the head
of the list — an occurrence of `"Array"` reachable without crossing a
newline (`.` does not match `\n` without `re.DOTALL`). -/
def searchArrayFrom : List Char → Bool
  | [] => false
  | c :: rest =>
    arrayTok.isPrefixOf (c :: rest) || (c ≠ '\n' && searchArrayFrom rest)

/-- Model of `re.search(r'TryGet.*Array', name)` as a Boolean: some occurrence of
`"TryGet"` followed (with no intervening newline) by an occurrence of
`"Array"`. -/
def matchTGA : List Char → Bool
  | [] => false
  | c :: rest =>
    (tryGetTok.isPrefixOf (c :: rest) && searchArrayFrom ((c :: rest).drop 6))
      || matchTGA rest

/-- Python `name.replace("&", "[]&")`: every `'&'` becomes `"[]&"`. -/
def replaceAmp : List Char → List Char
  | [] => []
  | c :: rest =>
    if c = '&' then '[' :: ']' :: '&' :: replaceAmp rest
    else c :: replaceAmp rest

/-- Step 2 of `clean_demangled`: the array-accessor disambiguation.

```python
if re.search(r'TryGet.*Array', name):
    name = name.replace("&", "[]&")
``` -/
def step2 (name : List Char) : List Char :=
  if matchTGA name then replaceAmp name else name

/-- Step 3 of `clean_demangled`: `re.sub(r'\s+', '', name)` — remove every
whitespace character. -/
def step3 (name : List Char) : List Char :=
  name.filter (fun c => !(pyIsSpace c))

/-- The name normalizer `clean_demangled` of `ida_dump_xrefs.py`:
namespace-qualifier truncation, then array-accessor disambiguation, then
whitespace removal. -/
def clean_demangled (name : List Char) : List Char :=
  step3 (step2 (step1 name))

/-- The hard-coded namespace prefixes skipped by the script
(`demangled.startswith(p)`). -/
def nsPrefixes : List (List Char) :=
  ["UnityEngine::".toList, "Unity::".toList, "UnityEngineInternal::".toList,
   "Microsoft::VisualBasic".toList, "System::".toList, "Mono::".toList,
   "MS::Internal".toList, "Microsoft::Win32".toList, "Interop::".toList,
   "Epic::".toList, "Sentry::".toList, "Steamworks::".toList,
   "Newtonsoft::Json:".toList, "TMPro::".toList,
   "Epic::OnlineServices".toList, "PolyfillExtensions::".toList,
   "Microsoft::CSharp".toList, "Internal::".toList,
   "Interop_SspiCli::".toList, "std::".toList, "namespace\x27::".toList]

/-- The hard-coded substrings whose presence makes the script skip a
function (`p in demangled`). -/
def substrMarkers : List (List Char) :=
  ["__fastcall".toList, "__cdecl".toList, "__crt".toList,
   "stdcall".toList, "_lambda_".toList, "_expandlocale_".toList]

/-- Model of `any(demangled.startswith(p) for p in (...))`: the namespace-prefix
rejection rule. -/
def nsFiltered (name : List Char) : Bool :=
  nsPrefixes.any (fun p => p.isPrefixOf name)

/-- Model of `any(p in demangled for p in (...))`: the substring rejection rule. -/
def substrFiltered (name : List Char) : Bool :=
  substrMarkers.any (fun p => hasSub name p)

/-- The abstract IDA analysis engine: the queries the script issues,
treated as a black box.  Addresses are `Nat`; `getName []` plays the role
of `get_name` returning an empty/absent name. -/
structure Engine where
  funcs : List Nat
  isCode : Nat → Bool
  getName : Nat → List Char
  demangle : List Char → Option (List Char)
  xrefsTo : Nat → List Nat
  getFuncName : Nat → List Char

/-- The caller-collection loop: for every xref source address that is code,
demangle the enclosing function's name; if demangling yields a non-empty
string (`if caller_demangled:`), normalize it and keep it.

```python
callers = []
for xref in XrefsTo(func_ea, 0):
    if ida_bytes.is_code(ida_bytes.get_full_flags(xref.frm)):
        caller_name = get_func_name(xref.frm)
        caller_demangled = demangle_name(caller_name, DEMANGLER)
        if caller_demangled:
            caller_cleaned = clean_demangled(caller_demangled)
            callers.append(caller_cleaned)
``` -/
def collectCallers (e : Engine) (ea : Nat) : List (List Char) :=
  (e.xrefsTo ea).filterMap (fun frm =>
    if e.isCode frm then
      match e.demangle (e.getFuncName frm) with
      | some cd => if cd = [] then none else some (clean_demangled cd)
      | none => none
    else none)

/-- Python's `sorted` on a list of strings: the unique non-decreasing
(lexicographic, by code point) reordering of the list. -/
def pySorted (l : List (List Char)) : List (List Char) :=
  l.insertionSort (· ≤ ·)

/-- The body of the script's per-function loop, up to the `xref_data`
insertion: `some (key, (CallCount, Usages))` when the function is accepted
and a record is inserted for it, `none` when a `continue` skips it. -/
def processFunc (e : Engine) (ea : Nat) :
    Option (List Char × Nat × List (List Char)) :=
  if !e.isCode ea then none
  else if e.getName ea = [] || hasSub (e.getName ea) dcolon then none
  else
    match e.demangle (e.getName ea) with
    | none => none
    | some d =>
      if nsFiltered (clean_demangled d) then none
      else if substrFiltered (clean_demangled d) then none
      else some (clean_demangled d, (collectCallers e ea).length,
                 pySorted (collectCallers e ea))

/-- Model of `xref_data[demangled] = ...`: Python dict assignment on an
association list — overwrite in place when the key exists, append
otherwise. -/
def dinsert (m : List (List Char × Nat × List (List Char)))
    (k : List Char) (v : Nat × List (List Char)) :
    List (List Char × Nat × List (List Char)) :=
  match m with
  | [] => [(k, v)]
  | (k', v') :: rest =>
    if k' = k then (k, v) :: rest else (k', v') :: dinsert rest k v

/-- Python dict lookup `m[k]` on the association-list model. -/
def dlookup (m : List (List Char × Nat × List (List Char)))
    (k : List Char) : Option (Nat × List (List Char)) :=
  match m with
  | [] => none
  | (k', v') :: rest => if k' = k then some v' else dlookup rest k

/-- One iteration of the `for func_ea in Functions():` loop (the non-raising
case): run the body and insert the record if one is produced. -/
def applyFunc (e : Engine) (m : List (List Char × Nat × List (List Char)))
    (ea : Nat) : List (List Char × Nat × List (List Char)) :=
  match processFunc e ea with
  | some (k, v) => dinsert m k v
  | none => m

/-- The whole run with an abstract per-candidate failure oracle: when
`fails ea = true`, processing `ea` raises an unexpected exception, which
the `except` clause catches (the accumulated `xref_data` is untouched,
since the dict insertion is the body's last step) and the loop continues. -/
def buildE (e : Engine) (fails : Nat → Bool) :
    List (List Char × Nat × List (List Char)) :=
  e.funcs.foldl (fun m ea => if fails ea then m else applyFunc e m ea) []

/-- The whole run without failures: the final `xref_data` mapping. -/
def build (e : Engine) : List (List Char × Nat × List (List Char)) :=
  e.funcs.foldl (applyFunc e) []

/-- Last index whose character is whitespace (`pyIsSpace`), `none` when
there is none.  Used only by `specStep1` below. -/
def rfindWs : List Char → Option Nat
  | [] => none
  | a :: rest =>
    match rfindWs rest with
    | some j => some (j + 1)
    | none => if pyIsSpace a then some 0 else none

/-- Following the spec's words for normalization step 1 (§4.1): take the
substring before the first `"::"`, find the last *whitespace character* in
that prefix (not merely the last space), and discard everything up to and
including it.  Stated for comparison with the source's `step1`, which
searches only for the space character `' '` (`prefix.rfind(" ")`). -/
def specStep1 (name : List Char) : List Char :=
  match findSub dcolon name with
  | none => name
  | some i =>
    match rfindWs (name.take i) with
    | none => name
    | some j => name.drop (j + 1)

/-- The spec's-words variant of the whole normalizer: `specStep1` followed
by the source's steps 2 and 3. -/
def specClean (name : List Char) : List Char :=
  step3 (step2 (specStep1 name))

/-- Variant of `step1` with the single position-dependent operation guarded: the slice
`name[last_space + 1:]` is modelled as a checked drop that fails (`none`)
if the start index exceeded the string length.  Everything else in
`clean_demangled` is index-free. -/
def step1Checked (name : List Char) : Option (List Char) :=
  match findSub dcolon name with
  | none => some name
  | some i =>
    match rfindChar ' ' (name.take i) with
    | none => some name
    | some j =>
      if j + 1 ≤ name.length then some (name.drop (j + 1)) else none

/-- Variant of `clean_demangled` with the checked step 1: `none` would mean an
out-of-range access during normalization. -/
def cleanChecked (name : List Char) : Option (List Char) :=
  (step1Checked name).map (fun n => step3 (step2 n))

/-- Concrete engine for the end-to-end scenario of §8: function `A`
(address 1, demangles to `G::A`) is called from inside `B` (address 2,
caller site 20, demangles to `G::B`, application code) and from inside `C`
(address 3, caller site 30, demangles to `System::F`, framework code). -/
def eScen : Engine where
  funcs := [1, 2, 3]
  isCode := fun a => a ∈ [1, 2, 3, 20, 30]
  getName := fun a =>
    if a = 1 then "A_m".toList else if a = 2 then "B_m".toList
    else if a = 3 then "C_m".toList else []
  demangle := fun nm =>
    if nm = "A_m".toList then some "G::A".toList
    else if nm = "B_m".toList then some "G::B".toList
    else if nm = "C_m".toList then some "System::F".toList
    else none
  xrefsTo := fun a => if a = 1 then [20, 30] else []
  getFuncName := fun a =>
    if a = 20 then "B_m".toList else if a = 30 then "C_m".toList else []

/-- Concrete engine for the failure-isolation witness: two acceptable
functions at addresses 1 and 2, no cross-references. -/
def eIso : Engine where
  funcs := [1, 2]
  isCode := fun a => a ∈ [1, 2]
  getName := fun a =>
    if a = 1 then "f1".toList else if a = 2 then "f2".toList else []
  demangle := fun nm =>
    if nm = "f1".toList then some "G::F1".toList
    else if nm = "f2".toList then some "G::F2".toList
    else none
  xrefsTo := fun _ => []
  getFuncName := fun _ => []

/-! ### Helper lemmas about the string primitives -/

theorem isPrefixOf_append_self : ∀ (a b : List Char), a.isPrefixOf (a ++ b) = true := by
  intro a b
  induction a with
  | nil => simp [List.isPrefixOf]
  | cons x xs ih => simp [List.isPrefixOf, ih]

theorem rfindChar_eq_none_of (c : Char) :
    ∀ (l : List Char), c ∉ l → rfindChar c l = none := by
  intro l
  induction l with
  | nil => intro _; rfl
  | cons a rest ih =>
    intro h
    have ha : a ≠ c := fun hac => h (hac ▸ List.mem_cons_self a rest)
    have hr : c ∉ rest := fun hm => h (List.mem_cons_of_mem a hm)
    simp [rfindChar, ih hr, ha]

theorem rfindChar_none_not_mem (c : Char) :
    ∀ (l : List Char), rfindChar c l = none → c ∉ l := by
  intro l
  induction l with
  | nil => simp
  | cons a rest ih =>
    intro h
    simp only [rfindChar] at h
    cases hr : rfindChar c rest with
    | some j => rw [hr] at h; exact absurd h (by simp)
    | none =>
      rw [hr] at h
      intro hm
      rcases List.mem_cons.mp hm with rfl | hm'
      · simp at h
      · exact ih hr hm'

theorem rfindChar_lt_length (c : Char) :
    ∀ (l : List Char) (j : Nat), rfindChar c l = some j → j < l.length := by
  intro l
  induction l with
  | nil => intro j h; exact absurd h (by simp [rfindChar])
  | cons a rest ih =>
    intro j h
    simp only [rfindChar] at h
    cases hr : rfindChar c rest with
    | some j' =>
      rw [hr] at h
      cases h
      exact Nat.succ_lt_succ (ih j' hr)
    | none =>
      rw [hr] at h
      by_cases ha : a = c
      · simp [ha] at h
        simp [← h]
      · simp [ha] at h

theorem rfindChar_eq_some_of (c : Char) :
    ∀ (l : List Char) (j : Nat), l.get? j = some c →
      (∀ k, j < k → l.get? k ≠ some c) → rfindChar c l = some j := by
  intro l
  induction l with
  | nil => intro j h _; simp at h
  | cons a rest ih =>
    intro j hj hlast
    cases j with
    | zero =>
      have ha : a = c := by simpa using hj
      have hnm : c ∉ rest := by
        intro hm
        rcases List.mem_iff_get?.mp hm with ⟨k, hk⟩
        exact hlast (k + 1) (Nat.succ_pos k) (by simpa using hk)
      simp [rfindChar, rfindChar_eq_none_of c rest hnm, ha]
    | succ j' =>
      have hj' : rest.get? j' = some c := by simpa using hj
      have hlast' : ∀ k, j' < k → rest.get? k ≠ some c := by
        intro k hk hbad
        exact hlast (k + 1) (Nat.succ_lt_succ hk) (by simpa using hbad)
      simp [rfindChar, ih j' hj' hlast']

theorem findSub_eq_some_of (sub : List Char) :
    ∀ (l : List Char) (i : Nat), subAt sub l i = true →
      (∀ k, k < i → subAt sub l k = false) → findSub sub l = some i := by
  intro l
  induction l with
  | nil =>
    intro i hi hmin
    cases i with
    | zero => simp only [subAt, List.drop_nil] at hi; simp [findSub, hi]
    | succ i' =>
      have h0 : subAt sub ([] : List Char) 0 = true := by
        simp only [subAt, List.drop_nil] at hi ⊢; exact hi
      have := hmin 0 (Nat.succ_pos i')
      rw [h0] at this
      cases this
  | cons a rest ih =>
    intro i hi hmin
    cases i with
    | zero =>
      simp only [subAt, List.drop] at hi
      simp [findSub, hi]
    | succ i' =>
      have h0 : subAt sub (a :: rest) 0 = false := hmin 0 (Nat.succ_pos i')
      simp only [subAt, List.drop] at h0
      have hi' : subAt sub rest i' = true := by
        simpa only [subAt, List.drop_succ_cons] using hi
      have hmin' : ∀ k, k < i' → subAt sub rest k = false := by
        intro k hk
        have := hmin (k + 1) (Nat.succ_lt_succ hk)
        simpa only [subAt, List.drop_succ_cons] using this
      simp [findSub, h0, ih i' hi' hmin']

theorem step1_eq_self_of_no_space (l : List Char) (h : ' ' ∉ l) : step1 l = l := by
  unfold step1
  cases hf : findSub dcolon l with
  | none => rfl
  | some i =>
    have hnm : ' ' ∉ l.take i := fun hm => h (List.take_subset i l hm)
    show (match rfindChar ' ' (l.take i) with
          | none => l
          | some j => l.drop (j + 1)) = l
    rw [rfindChar_eq_none_of ' ' (l.take i) hnm]

theorem replaceAmp_eq_self : ∀ (l : List Char), '&' ∉ l → replaceAmp l = l := by
  intro l
  induction l with
  | nil => intro _; rfl
  | cons a rest ih =>
    intro h
    have ha : a ≠ '&' := fun hac => h (hac ▸ List.mem_cons_self a rest)
    have hr : '&' ∉ rest := fun hm => h (List.mem_cons_of_mem a hm)
    simp [replaceAmp, ha, ih hr]

theorem step3_eq_self (l : List Char) (h : ∀ c ∈ l, pyIsSpace c = false) :
    step3 l = l := by
  unfold step3
  rw [List.filter_eq_self]
  intro c hc
  simp [h c hc]

theorem clean_no_ws (s : List Char) :
    ∀ c ∈ clean_demangled s, pyIsSpace c = false := by
  intro c hc
  unfold clean_demangled step3 at hc
  have := List.of_mem_filter hc
  simpa using this

theorem searchArrayFrom_append :
    ∀ (b : List Char), '\n' ∉ b → ∀ (c : List Char),
      searchArrayFrom (b ++ arrayTok ++ c) = true := by
  intro b
  induction b with
  | nil =>
    intro _ c
    show searchArrayFrom (arrayTok ++ c) = true
    have : arrayTok ++ c = 'A' :: ('r' :: 'r' :: 'a' :: 'y' :: c) := rfl
    rw [this]
    simp only [searchArrayFrom, Bool.or_eq_true]
    left
    exact isPrefixOf_append_self arrayTok c
  | cons x b' ih =>
    intro h c
    have hx : x ≠ '\n' := fun hc => h (hc ▸ List.mem_cons_self x b')
    have hb' : '\n' ∉ b' := fun hm => h (List.mem_cons_of_mem x hm)
    show searchArrayFrom (x :: (b' ++ arrayTok ++ c)) = true
    simp only [searchArrayFrom, Bool.or_eq_true, Bool.and_eq_true]
    right
    exact ⟨by simpa using hx, ih hb' c⟩

theorem matchTGA_append :
    ∀ (a b c : List Char), '\n' ∉ b →
      matchTGA (a ++ (tryGetTok ++ (b ++ (arrayTok ++ c)))) = true := by
  intro a
  induction a with
  | nil =>
    intro b c hb
    simp only [List.nil_append]
    have hsh : tryGetTok ++ (b ++ (arrayTok ++ c))
        = 'T' :: ('r' :: 'y' :: 'G' :: 'e' :: 't' :: (b ++ (arrayTok ++ c))) := rfl
    rw [hsh]
    simp only [matchTGA, Bool.or_eq_true, Bool.and_eq_true]
    left
    constructor
    · exact isPrefixOf_append_self tryGetTok (b ++ (arrayTok ++ c))
    · show searchArrayFrom (b ++ (arrayTok ++ c)) = true
      simpa [List.append_assoc] using searchArrayFrom_append b hb c
  | cons x a' ih =>
    intro b c hb
    show matchTGA (x :: (a' ++ (tryGetTok ++ (b ++ (arrayTok ++ c))))) = true
    simp only [matchTGA, Bool.or_eq_true]
    right
    exact ih b c hb

theorem step1Checked_eq (s : List Char) : step1Checked s = some (step1 s) := by
  unfold step1Checked step1
  cases hf : findSub dcolon s with
  | none => rfl
  | some i =>
    show (match rfindChar ' ' (s.take i) with
          | none => some s
          | some j => if j + 1 ≤ s.length then some (s.drop (j + 1)) else none)
        = some (match rfindChar ' ' (s.take i) with
          | none => s
          | some j => s.drop (j + 1))
    cases hr : rfindChar ' ' (s.take i) with
    | none => rfl
    | some j =>
      have hj := rfindChar_lt_length ' ' (s.take i) j hr
      rw [List.length_take] at hj
      have hjs : j + 1 ≤ s.length := by omega
      simp [hjs]

/-! ### Helper lemmas about the builder -/

theorem processFunc_some (e : Engine) (ea : Nat) (k : List Char)
    (cnt : Nat) (us : List (List Char))
    (h : processFunc e ea = some (k, cnt, us)) :
    cnt = (collectCallers e ea).length ∧ us = pySorted (collectCallers e ea) := by
  unfold processFunc at h
  split at h
  · cases h
  · split at h
    · cases h
    · split at h
      · cases h
      · split at h
        · cases h
        · split at h
          · cases h
          · rw [Option.some.injEq, Prod.mk.injEq, Prod.mk.injEq] at h
            exact ⟨h.2.1.symm, h.2.2.symm⟩

theorem mem_dinsert :
    ∀ (m : List (List Char × Nat × List (List Char))) (k : List Char)
      (v : Nat × List (List Char)) (x),
      x ∈ dinsert m k v → x = (k, v) ∨ x ∈ m := by
  intro m
  induction m with
  | nil => intro k v x hx; simpa [dinsert] using hx
  | cons p rest ih =>
    intro k v x hx
    by_cases hk : p.1 = k
    · simp only [dinsert, hk, if_pos rfl] at hx
      rcases List.mem_cons.mp hx with rfl | hx'
      · exact Or.inl rfl
      · exact Or.inr (List.mem_cons_of_mem p hx')
    · simp only [dinsert, if_neg hk] at hx
      rcases List.mem_cons.mp hx with rfl | hx'
      · exact Or.inr (List.mem_cons_self _ _)
      · rcases ih k v x hx' with h | h
        · exact Or.inl h
        · exact Or.inr (List.mem_cons_of_mem p h)

theorem dlookup_dinsert_self :
    ∀ (m : List (List Char × Nat × List (List Char))) (k : List Char)
      (v : Nat × List (List Char)), dlookup (dinsert m k v) k = some v := by
  intro m
  induction m with
  | nil => intro k v; simp [dinsert, dlookup]
  | cons p rest ih =>
    intro k v
    by_cases hk : p.1 = k
    · simp [dinsert, hk, dlookup]
    · simp [dinsert, hk, dlookup, ih]

theorem dlookup_dinsert_isSome
    (m : List (List Char × Nat × List (List Char))) (k : List Char)
    (v : Nat × List (List Char)) (q : List Char)
    (h : (dlookup m q).isSome = true) :
    (dlookup (dinsert m k v) q).isSome = true := by
  induction m with
  | nil => simp [dlookup] at h
  | cons p rest ih =>
    by_cases hk : p.1 = k
    · by_cases hq : k = q
      · simp [dinsert, hk, dlookup, hq]
      · simp only [dlookup, hk, hq, if_neg, dinsert, if_pos rfl] at h ⊢
        simpa [hq] using h
    · simp only [dinsert, if_neg hk] at *
      by_cases hq : p.1 = q
      · simp [dlookup, hq]
      · simp only [dlookup, if_neg hq] at h ⊢
        exact ih h

theorem foldl_step_lookup_mono (e : Engine) (fails : Nat → Bool) :
    ∀ (l : List Nat) (m : List (List Char × Nat × List (List Char)))
      (k : List Char), (dlookup m k).isSome = true →
      (dlookup (l.foldl (fun m ea => if fails ea then m else applyFunc e m ea) m)
        k).isSome = true := by
  intro l
  induction l with
  | nil => intro m k h; simpa using h
  | cons a l' ih =>
    intro m k h
    simp only [List.foldl_cons]
    apply ih
    by_cases hf : fails a
    · simpa [hf] using h
    · simp only [hf, if_neg, Bool.false_eq_true, not_false_eq_true]
      unfold applyFunc
      cases hp : processFunc e a with
      | none => simpa using h
      | some kv => exact dlookup_dinsert_isSome m kv.1 kv.2 k h

theorem foldl_step_lookup_of_mem (e : Engine) (fails : Nat → Bool) :
    ∀ (l : List Nat) (m : List (List Char × Nat × List (List Char)))
      (ea : Nat) (k : List Char) (cnt : Nat) (us : List (List Char)),
      ea ∈ l → fails ea = false → processFunc e ea = some (k, cnt, us) →
      (dlookup (l.foldl (fun m ea => if fails ea then m else applyFunc e m ea) m)
        k).isSome = true := by
  intro l
  induction l with
  | nil => intro m ea k cnt us h; cases h
  | cons a l' ih =>
    intro m ea k cnt us hmem hfa hp
    simp only [List.foldl_cons]
    rcases List.mem_cons.mp hmem with rfl | hmem'
    · apply foldl_step_lookup_mono
      simp only [hfa, if_neg, Bool.false_eq_true, not_false_eq_true]
      unfold applyFunc
      rw [hp]
      rw [dlookup_dinsert_self]
      rfl
    · exact ih _ ea k cnt us hmem' hfa hp

theorem foldl_step_rec (e : Engine) (fails : Nat → Bool)
    (P : List Char × Nat × List (List Char) → Prop)
    (hP : ∀ ea k cnt us, ea ∈ e.funcs → processFunc e ea = some (k, cnt, us) →
      P (k, cnt, us)) :
    ∀ (l : List Nat) (m : List (List Char × Nat × List (List Char))),
      (∀ a ∈ l, a ∈ e.funcs) → (∀ x ∈ m, P x) →
      ∀ x ∈ l.foldl (fun m ea => if fails ea then m else applyFunc e m ea) m,
        P x := by
  intro l
  induction l with
  | nil => intro m _ hm x hx; exact hm x (by simpa using hx)
  | cons a l' ih =>
    intro m hl hm x hx
    simp only [List.foldl_cons] at hx
    refine ih _ (fun b hb => hl b (List.mem_cons_of_mem a hb)) ?_ x hx
    intro y hy
    by_cases hf : fails a
    · exact hm y (by simpa [hf] using hy)
    · simp only [hf, if_neg, Bool.false_eq_true, not_false_eq_true] at hy
      unfold applyFunc at hy
      cases hp : processFunc e a with
      | none => rw [hp] at hy; exact hm y hy
      | some kv =>
        rw [hp] at hy
        rcases mem_dinsert m kv.1 kv.2 y hy with rfl | hy'
        · exact hP a kv.1 kv.2.1 kv.2.2 (hl a (List.mem_cons_self a l')) (by
            simpa using hp)
        · exact hm y hy'

theorem build_eq_buildE_false (e : Engine) :
    build e = buildE e (fun _ => false) := by
  unfold build buildE
  congr 1

/-! ### Claim theorems -/

/-- C4: for every string `s`, `clean_demangled s` contains no whitespace
character — every character of the normalized name fails `pyIsSpace`. -/
theorem C4_normalize_no_whitespace :
    ∀ (s : List Char), (clean_demangled s).all (fun c => !(pyIsSpace c)) = true := by
  intro s
  rw [List.all_eq_true]
  intro c hc
  simp [clean_no_ws s c hc]

/-- C9: the normalizer is total: the variant of `clean_demangled` whose one
position-dependent slice is bounds-checked (`cleanChecked`) never fails, on
any input, and empty/short inputs (shorter than `"::"`, `"TryGet"`,
`"Array"`, `"&"`) are handled without error. -/
theorem C9_normalize_total :
    (∀ (s : List Char), cleanChecked s = some (clean_demangled s))
    ∧ clean_demangled [] = []
    ∧ clean_demangled [':'] = [':']
    ∧ clean_demangled ['&'] = ['&'] := by
  refine ⟨?_, by decide, by decide, by decide⟩
  intro s
  unfold cleanChecked
  rw [step1Checked_eq]
  rfl

/-- C2 counterexample: normalization is not idempotent.  On
`"TryGetArray&"` one application yields `"TryGetArray[]&"`, which still
matches the `TryGet.*Array` pattern, so a second application rewrites the
`'&'` again and yields `"TryGetArray[][]&"`. -/
theorem C2_counterexample_not_idempotent :
    clean_demangled (clean_demangled "TryGetArray&".toList)
      ≠ clean_demangled "TryGetArray&".toList
    ∧ clean_demangled "TryGetArray&".toList = "TryGetArray[]&".toList
    ∧ clean_demangled "TryGetArray[]&".toList = "TryGetArray[][]&".toList :=
  ⟨by decide, by decide, by decide⟩

/-- C2 amended: normalization is idempotent exactly outside the
array-disambiguation case — for every `s` whose normal form does not match
the `TryGet.*Array` pattern, or contains no `'&'`,
`clean_demangled (clean_demangled s) = clean_demangled s`. -/
theorem C2_idempotent_unless_array_pattern :
    ∀ (s : List Char),
      matchTGA (clean_demangled s) = false ∨ '&' ∉ clean_demangled s →
      clean_demangled (clean_demangled s) = clean_demangled s := by
  intro s h
  have hw : ∀ c ∈ clean_demangled s, pyIsSpace c = false := clean_no_ws s
  have hsp : ' ' ∉ clean_demangled s := by
    intro hm
    have := hw ' ' hm
    simp [pyIsSpace] at this
  have h1 : step1 (clean_demangled s) = clean_demangled s :=
    step1_eq_self_of_no_space _ hsp
  have h2 : step2 (clean_demangled s) = clean_demangled s := by
    unfold step2
    rcases h with h | h
    · simp [h]
    · split
      · exact replaceAmp_eq_self _ h
      · rfl
  show step3 (step2 (step1 (clean_demangled s))) = clean_demangled s
  rw [h1, h2]
  exact step3_eq_self _ hw

/-- Witness for C2's amended theorem at `s = "G::A"`. -/
theorem C2_idempotent_witness :
    (matchTGA (clean_demangled "G::A".toList) = false
      ∨ '&' ∉ clean_demangled "G::A".toList)
    ∧ clean_demangled (clean_demangled "G::A".toList)
        = clean_demangled "G::A".toList :=
  ⟨Or.inl (by decide),
   C2_idempotent_unless_array_pattern "G::A".toList (Or.inl (by decide))⟩

/-- C3 counterexample: step 1 searches the prefix for the last *space*
character (`prefix.rfind(" ")`), not the last whitespace character.  On
`"R\tN::M"` the prefix `"R\tN"` contains a tab but no space, so the code
leaves the string unchanged and yields `"RN::M"`, while the claimed
last-whitespace rule (`specClean`) would discard through the tab and
yield `"N::M"`. -/
theorem C3_counterexample_tab_not_discarded :
    clean_demangled "R\tN::M".toList = "RN::M".toList
    ∧ specClean "R\tN::M".toList = "N::M".toList
    ∧ clean_demangled "R\tN::M".toList ≠ specClean "R\tN::M".toList :=
  ⟨by decide, by decide, by decide⟩

/-- C3 amended: for every input containing `"::"`, with `i` the position of
the *first* occurrence, step 1 finds the last *space* character (`' '`,
not arbitrary whitespace) in the prefix `s.take i` and discards everything
up to and including it; if the prefix contains no space the string is
unchanged at this step.  The example
`"ReturnType NS::Class::Method(int)" ↦ "NS::Class::Method(int)"` holds. -/
theorem C3_truncation_last_space :
    (∀ (s : List Char) (i j : Nat),
      subAt dcolon s i = true →
      (∀ k, k < i → subAt dcolon s k = false) →
      (s.take i).get? j = some ' ' →
      (∀ k, k < i → j < k → (s.take i).get? k ≠ some ' ') →
      step1 s = s.drop (j + 1))
    ∧ (∀ (s : List Char) (i : Nat),
      subAt dcolon s i = true →
      (∀ k, k < i → subAt dcolon s k = false) →
      (∀ k, k < i → (s.take i).get? k ≠ some ' ') →
      step1 s = s)
    ∧ clean_demangled "ReturnType NS::Class::Method(int)".toList
        = "NS::Class::Method(int)".toList := by
  refine ⟨?_, ?_, by decide⟩
  · intro s i j hsub hmin hj hlast
    have hf : findSub dcolon s = some i := findSub_eq_some_of dcolon s i hsub hmin
    have hrf : rfindChar ' ' (s.take i) = some j := by
      apply rfindChar_eq_some_of
      · exact hj
      · intro k hk
        by_cases hki : k < (s.take i).length
        · have hki' : k < i := by
            rw [List.length_take] at hki
            omega
          exact hlast k hki' hk
        · push_neg at hki
          rw [List.get?_eq_none.mpr hki]
          simp
    simp [step1, hf, hrf]
  · intro s i hsub hmin hnone
    have hf : findSub dcolon s = some i := findSub_eq_some_of dcolon s i hsub hmin
    have hnm : ' ' ∉ s.take i := by
      intro hm
      rcases List.mem_iff_get?.mp hm with ⟨k, hk⟩
      have hki : k < (s.take i).length := by
        by_contra hge
        push_neg at hge
        rw [List.get?_eq_none.mpr hge] at hk
        cases hk
      have hki' : k < i := by
        rw [List.length_take] at hki
        omega
      exact hnone k hki' hk
    have hrf : rfindChar ' ' (s.take i) = none :=
      rfindChar_eq_none_of ' ' (s.take i) hnm
    simp [step1, hf, hrf]

/-- Witness for C3's amended theorem: the first `"::"` of
`"ReturnType NS::Class::Method(int)"` is at 13, the last space of the
prefix at 10, and step 1 drops through index 10; on `"A::B"` the prefix
`"A"` has no space and step 1 is the identity. -/
theorem C3_truncation_witness :
    step1 "ReturnType NS::Class::Method(int)".toList
      = "ReturnType NS::Class::Method(int)".toList.drop 11
    ∧ step1 "A::B".toList = "A::B".toList :=
  ⟨C3_truncation_last_space.1 "ReturnType NS::Class::Method(int)".toList 13 10
      (by decide) (by decide) (by decide) (by decide),
   C3_truncation_last_space.2.1 "A::B".toList 1 (by decide) (by decide) (by decide)⟩

/-- C7 counterexample: the `TryGet.*Array` pattern is tested against the
*post-step-1* name, not the raw input.  `"TryGetArray N::f(&)"` contains
`TryGet` followed later by `Array`, yet after the namespace-qualifier
truncation the remaining name `"N::f(&)"` no longer matches, so the `'&'`
is not replaced: the output contains `'&'` but not `"[]&"`. -/
theorem C7_counterexample_pattern_after_truncation :
    "TryGetArray N::f(&)".toList
      = tryGetTok ++ arrayTok ++ " N::f(&)".toList
    ∧ clean_demangled "TryGetArray N::f(&)".toList = "N::f(&)".toList
    ∧ hasSub "N::f(&)".toList ['&'] = true
    ∧ hasSub "N::f(&)".toList ['[', ']', '&'] = false :=
  ⟨by decide, by decide, by decide, by decide⟩

/-- C7 amended: when the *post-step-1* name contains `"TryGet"` followed
later by `"Array"` with no newline in between (the semantics of
`re.search(r'TryGet.*Array', ...)`), normalization replaces every `'&'`
with `"[]&"` and then strips whitespace; in particular
`"bool NS::TryGetValueArray(int&)"` normalizes to
`"NS::TryGetValueArray(int[]&)"`. -/
theorem C7_array_disambiguation :
    (∀ (s a b c : List Char),
      step1 s = a ++ (tryGetTok ++ (b ++ (arrayTok ++ c))) → '\n' ∉ b →
      clean_demangled s = step3 (replaceAmp (step1 s)))
    ∧ clean_demangled "bool NS::TryGetValueArray(int&)".toList
        = "NS::TryGetValueArray(int[]&)".toList := by
  constructor
  · intro s a b c hdec hb
    have hm : matchTGA (step1 s) = true := by
      rw [hdec]
      exact matchTGA_append a b c hb
    show step3 (step2 (step1 s)) = step3 (replaceAmp (step1 s))
    unfold step2
    rw [if_pos hm]
  · decide

/-- Witness for C7's amended theorem at `s = "TryGetAArray&"` (no `"::"`,
so step 1 is the identity; `a = []`, `b = "A"`, `c = "&"`). -/
theorem C7_array_witness :
    clean_demangled "TryGetAArray&".toList
      = step3 (replaceAmp (step1 "TryGetAArray&".toList)) :=
  C7_array_disambiguation.1 "TryGetAArray&".toList [] ['A'] ['&']
    (by decide) (by decide)

/-- C1 counterexample: callers are *not* passed through the
namespace/substring filter.  In the A/B/C scenario engine, `A`'s record
lists the framework caller `System::F` in its `Usages` even though
`System::F` fails the namespace-prefix filter. -/
theorem C1_counterexample_caller_not_filtered :
    dlookup (build eScen) "G::A".toList
      = some (2, ["G::B".toList, "System::F".toList])
    ∧ nsFiltered "System::F".toList = true :=
  ⟨by decide, by decide⟩

/-- C1 amended: the namespace-prefix and substring rejection rules are
applied only to the *target* name; collected callers are normalized but
never filtered, so every collected caller (framework or not) appears in
the record's `Usages`.  In the A/B/C scenario the output has entries for
`A` and `B`, none for `C` (`System::F`), and `A`'s record lists both `B`
and the filtered-out `C`. -/
theorem C1_callers_unfiltered :
    (∀ (e : Engine) (ea : Nat) (k : List Char) (cnt : Nat)
      (us : List (List Char)),
      processFunc e ea = some (k, cnt, us) →
      ∀ x ∈ collectCallers e ea, x ∈ us)
    ∧ dlookup (build eScen) "G::A".toList
        = some (2, ["G::B".toList, "System::F".toList])
    ∧ dlookup (build eScen) "G::B".toList = some (0, [])
    ∧ dlookup (build eScen) "System::F".toList = none
    ∧ nsFiltered "System::F".toList = true := by
  refine ⟨?_, by decide, by decide, by decide, by decide⟩
  intro e ea k cnt us hp x hx
  rw [(processFunc_some e ea k cnt us hp).2]
  unfold pySorted
  rw [List.mem_insertionSort]
  exact hx

/-- Witness for C1's amended theorem: the framework caller `System::F`
collected for `A` is in `A`'s `Usages`. -/
theorem C1_callers_witness :
    "System::F".toList ∈ ["G::B".toList, "System::F".toList] :=
  C1_callers_unfiltered.1 eScen 1 "G::A".toList 2
    ["G::B".toList, "System::F".toList] (by decide)
    "System::F".toList (by decide)

/-- C5: for every record in the final mapping, `CallCount` equals the
length of `Usages`. -/
theorem C5_callcount_eq_usages_length :
    ∀ (e : Engine) (k : List Char) (cnt : Nat) (us : List (List Char)),
      (k, cnt, us) ∈ build e → cnt = us.length := by
  intro e k cnt us hmem
  rw [build_eq_buildE_false] at hmem
  unfold buildE at hmem
  refine foldl_step_rec e (fun _ => false) (fun x => x.2.1 = x.2.2.length) ?_
    e.funcs [] (fun a ha => ha) (by simp) (k, cnt, us) hmem
  intro ea k' cnt' us' _ hp
  obtain ⟨h1, h2⟩ := processFunc_some e ea k' cnt' us' hp
  show cnt' = us'.length
  rw [h1, h2]
  unfold pySorted
  rw [List.length_insertionSort]

/-- Witness for C5 at the `A` record of the scenario engine. -/
theorem C5_callcount_witness :
    (("G::A".toList, 2, ["G::B".toList, "System::F".toList]) ∈ build eScen)
    ∧ 2 = (["G::B".toList, "System::F".toList] : List (List Char)).length :=
  ⟨by decide,
   C5_callcount_eq_usages_length eScen "G::A".toList 2
     ["G::B".toList, "System::F".toList] (by decide)⟩

/-- C6: for every record in the final mapping, `Usages` is non-decreasing
in the lexicographic order on strings, and is a permutation of the
collected caller list of some enumerated function — duplicates survive
(nothing is removed beyond reordering). -/
theorem C6_usages_sorted_no_dedup :
    ∀ (e : Engine) (k : List Char) (cnt : Nat) (us : List (List Char)),
      (k, cnt, us) ∈ build e →
      us.Sorted (· ≤ ·) ∧ ∃ ea ∈ e.funcs, us.Perm (collectCallers e ea) := by
  intro e k cnt us hmem
  rw [build_eq_buildE_false] at hmem
  unfold buildE at hmem
  refine foldl_step_rec e (fun _ => false)
    (fun x => x.2.2.Sorted (· ≤ ·)
      ∧ ∃ ea ∈ e.funcs, x.2.2.Perm (collectCallers e ea)) ?_
    e.funcs [] (fun a ha => ha) (by simp) (k, cnt, us) hmem
  intro ea k' cnt' us' hea hp
  obtain ⟨_, h2⟩ := processFunc_some e ea k' cnt' us' hp
  show us'.Sorted (· ≤ ·) ∧ ∃ ea' ∈ e.funcs, us'.Perm (collectCallers e ea')
  rw [h2]
  unfold pySorted
  exact ⟨List.sorted_insertionSort (· ≤ ·) _,
    ⟨ea, hea, List.perm_insertionSort (· ≤ ·) _⟩⟩

/-- Witness for C6 at the `A` record of the scenario engine. -/
theorem C6_usages_witness :
    (("G::A".toList, 2, ["G::B".toList, "System::F".toList]) ∈ build eScen)
    ∧ (["G::B".toList, "System::F".toList] : List (List Char)).Sorted (· ≤ ·)
    ∧ ∃ ea ∈ eScen.funcs,
        (["G::B".toList, "System::F".toList] : List (List Char)).Perm
          (collectCallers eScen ea) := by
  refine ⟨by decide, ?_, ?_⟩
  · exact (C6_usages_sorted_no_dedup eScen "G::A".toList 2
      ["G::B".toList, "System::F".toList] (by decide)).1
  · exact (C6_usages_sorted_no_dedup eScen "G::A".toList 2
      ["G::B".toList, "System::F".toList] (by decide)).2

/-- C8: failure isolation.  With an abstract per-candidate failure oracle
`fails` modelling an unexpected exception caught by the `except` clause
(the candidate's record is simply not inserted), every candidate that does
not fail and is accepted still has an entry in the final mapping —
one bad function never aborts the run. -/
theorem C8_failure_isolation :
    ∀ (e : Engine) (fails : Nat → Bool) (ea : Nat) (k : List Char)
      (cnt : Nat) (us : List (List Char)),
      ea ∈ e.funcs → fails ea = false →
      processFunc e ea = some (k, cnt, us) →
      (dlookup (buildE e fails) k).isSome = true := by
  intro e fails ea k cnt us hmem hf hp
  unfold buildE
  exact foldl_step_lookup_of_mem e fails e.funcs [] ea k cnt us hmem hf hp

/-- Witness for C8: in the two-function engine `eIso`, function 1 raises
(abstractly) while function 2 is processed; function 2's record is still
present. -/
theorem C8_isolation_witness :
    (dlookup (buildE eIso (fun a => a == 1)) "G::F2".toList).isSome = true :=
  C8_failure_isolation eIso (fun a => a == 1) 2 "G::F2".toList 0 []
    (by decide) (by decide) (by decide)

/-- C10: an accepted target whose collected caller list is empty gets
`CallCount = 0` and `Usages = []`, and every accepted target — callers or
not — has an entry in the final mapping. -/
theorem C10_zero_callers_recorded :
    ∀ (e : Engine) (ea : Nat) (k : List Char) (cnt : Nat)
      (us : List (List Char)),
      ea ∈ e.funcs → processFunc e ea = some (k, cnt, us) →
      (dlookup (build e) k).isSome = true
      ∧ (collectCallers e ea = [] → cnt = 0 ∧ us = []) := by
  intro e ea k cnt us hmem hp
  constructor
  · rw [build_eq_buildE_false]
    unfold buildE
    exact foldl_step_lookup_of_mem e (fun _ => false) e.funcs [] ea k cnt us
      hmem rfl hp
  · intro hc
    obtain ⟨h1, h2⟩ := processFunc_some e ea k cnt us hp
    rw [hc] at h1 h2
    exact ⟨by simpa using h1, by simpa [pySorted] using h2⟩

/-- Witness for C10 at function `B` of the scenario engine, which has no
callers and still appears with `CallCount = 0`, `Usages = []`. -/
theorem C10_zero_callers_witness :
    (dlookup (build eScen) "G::B".toList).isSome = true
    ∧ (collectCallers eScen 2 = [] → 0 = 0 ∧ ([] : List (List Char)) = []) :=
  C10_zero_callers_recorded eScen 2 "G::B".toList 0 [] (by decide) (by decide)

end IL2Cpp
